import Mathlib

/-!
Verification of the encrypted linear-transform / matrix-multiplication example of the
SEAL python bindings (src/python/examples/example_7_matrix_multiplication.py).

The pure numpy parts (diagonal extraction, the four permutation matrices, packing)
are embedded directly.  The homomorphic engine (Evaluator, CKKSEncoder, ...) is C++
code of the repository that is not under src/, so its operations are modelled from
the spec's external-interface contract: a ciphertext is its decoded slot vector
together with scale, level and size metadata, and every engine operation acts on
that metadata exactly as the contract states.  Fallible operations live in
Except Err.
-/

/-- Error taxonomy: one constructor per raise site of the example code and per
failure mode of the modelled engine contract. -/
inductive Err where
  | shape
  | indexOOB
  | capacity
  | levelUp
  | levelMismatch
  | scaleMismatch
  | emptyAdd
  | budget
deriving DecidableEq

instance {ε α : Type} [DecidableEq ε] [DecidableEq α] : DecidableEq (Except ε α) := fun x y =>
  match x, y with
  | .ok a, .ok b =>
    if h : a = b then Decidable.isTrue (by rw [h])
    else Decidable.isFalse (by intro hc; injection hc; contradiction)
  | .error e, .error e' =>
    if h : e = e' then Decidable.isTrue (by rw [h])
    else Decidable.isFalse (by intro hc; injection hc; contradiction)
  | .ok _, .error _ => Decidable.isFalse (by intro hc; injection hc)
  | .error _, .ok _ => Decidable.isFalse (by intro hc; injection hc)

/-- A numpy-style real matrix: a shape together with a (total) entry function.
Only entries with both indices in range are meaningful. -/
structure NpMat where
  rows : ℕ
  cols : ℕ
  entry : ℕ → ℕ → ℚ

/-- Equality of numpy matrices: equal shapes and equal in-range entries. -/
def NpMat.EqOn (A B : NpMat) : Prop :=
  A.rows = B.rows ∧ A.cols = B.cols ∧
    ∀ r, r < A.rows → ∀ c, c < A.cols → A.entry r c = B.entry r c

instance (A B : NpMat) : Decidable (A.EqOn B) := by
  unfold NpMat.EqOn
  infer_instance

/-- The numpy function np.diag with an integer offset: the k-th straight diagonal
of a matrix, as a list (empty when the offset is out of range). -/
def npDiag (U : NpMat) (k : ℤ) : List ℚ :=
  if 0 ≤ k then
    (List.range (min U.rows (U.cols - k.toNat))).map fun i => U.entry i (i + k.toNat)
  else
    (List.range (min (U.rows - (-k).toNat) U.cols)).map fun i => U.entry (i + (-k).toNat) i

/-- The concatenation np.diag(U, l) ++ np.diag(U, l - N) formed inside diag_repr,
for N the row count of U. -/
def diagConcat (U : NpMat) (l : ℕ) : List ℚ :=
  npDiag U (l : ℤ) ++ npDiag U ((l : ℤ) - (U.rows : ℤ))

/-- diag_repr of the example: the l-th generalized diagonal of a square matrix;
raises on a non-square input, and on a length mismatch of the concatenation. -/
def diag_repr (U : NpMat) (l : ℕ) : Except Err (List ℚ) :=
  if U.rows ≠ U.cols then .error .shape
  else if (diagConcat U l).length ≠ U.rows then .error .indexOOB
  else .ok (diagConcat U l)

/-- Pointwise sum of two slot vectors (numpy +, truncating to the shorter). -/
def addL (xs ys : List ℚ) : List ℚ := List.zipWith (· + ·) xs ys

/-- Pointwise product of two slot vectors (numpy *, truncating to the shorter). -/
def elemMulL (xs ys : List ℚ) : List ℚ := List.zipWith (· * ·) xs ys

/-- Zero-pad a vector on the right up to n slots. -/
def padTo (n : ℕ) (xs : List ℚ) : List ℚ := xs ++ List.replicate (n - xs.length) 0

/-- Cyclic left rotation of a slot vector by l slots: slot i of the result is
slot (i + l) mod length of the input. -/
def rotL (m : List ℚ) (l : ℕ) : List ℚ :=
  (List.range m.length).map fun i => m.getD ((i + l) % m.length) 0

/-- Sum of a list of slot vectors, starting from the length-n zero vector. -/
def sumTerms (n : ℕ) (ts : List (List ℚ)) : List ℚ := ts.foldl addL (List.replicate n 0)

/-- Plain matrix-vector product U · m as a list. -/
def matVecL (U : NpMat) (m : List ℚ) : List ℚ :=
  (List.range U.rows).map fun i =>
    ((List.range U.cols).map fun j => U.entry i j * m.getD j 0).sum

/-- The left-hand side of the diagonal-decomposition identity: the sum over l of
the l-th generalized diagonal times the input rotated by l. -/
def diag_decomp_sum (U : NpMat) (m : List ℚ) : List ℚ :=
  sumTerms U.rows ((List.range U.rows).map fun l => elemMulL (diagConcat U l) (rotL m l))

/-- The entry function produced by a loop that writes a 1 at every (row, col)
pair of the given list into an initially all-zero array. -/
def buildPerm (ps : List (ℕ × ℕ)) : ℕ → ℕ → ℚ :=
  ps.foldl (fun f p => fun r c => if r = p.1 ∧ c = p.2 then 1 else f r c) fun _ _ => 0

/-- itertools.product(range d, range d), in loop order. -/
def prodPairs (d : ℕ) : List (ℕ × ℕ) :=
  (List.range d).flatMap fun i => (List.range d).map fun j => (i, j)

/-- Common loop shape of the four permutation generators: a d² × d² zero matrix
with a 1 written at (d·i + j, colf i j) for every i, j in range d. -/
def permBase (d : ℕ) (colf : ℕ → ℕ → ℕ) : NpMat :=
  ⟨d * d, d * d, buildPerm ((prodPairs d).map fun p => (d * p.1 + p.2, colf p.1 p.2))⟩

/-- The base matrix Usigma of sigma_permutation: 1 at (d·i+j, d·i + (i+j) mod d). -/
def sigmaBase (d : ℕ) : NpMat := permBase d fun i j => d * i + (i + j) % d

/-- The base matrix Utau of tau_permutation: 1 at (d·i+j, d·((i+j) mod d) + j). -/
def tauBase (d : ℕ) : NpMat := permBase d fun i j => d * ((i + j) % d) + j

/-- The matrix Vk of phi_permutation_k: 1 at (d·i+j, d·i + (j+k) mod d). -/
def phiBase (k d : ℕ) : NpMat := permBase d fun i j => d * i + (j + k) % d

/-- The matrix Wk of psi_permutation_k: 1 at (d·i+j, d·((i+k) mod d) + j). -/
def psiBase (k d : ℕ) : NpMat := permBase d fun i j => d * ((i + k) % d) + j

/-- np.eye(n). -/
def npEye (n : ℕ) : NpMat := ⟨n, n, fun r c => if r = c then 1 else 0⟩

/-- np.kron of two matrices. -/
def npKron (A B : NpMat) : NpMat :=
  ⟨A.rows * B.rows, A.cols * B.cols, fun r c =>
    A.entry (r / B.rows) (c / B.cols) * B.entry (r % B.rows) (c % B.cols)⟩

/-- Truncation A[0:m, 0:m] by numpy slicing (never enlarging). -/
def npTrunc (A : NpMat) (m : ℕ) : NpMat := ⟨min A.rows m, min A.cols m, A.entry⟩

/-- sigma_permutation of the example: the base matrix, duplicated by
np.kron(np.eye(2), .) and sliced to [0:nmax, 0:nmax]. -/
def sigma_permutation (d nmax : ℕ) : NpMat := npTrunc (npKron (npEye 2) (sigmaBase d)) nmax

/-- tau_permutation of the example: the base matrix, duplicated by
np.kron(np.eye(2), .) and sliced to [0:nmax, 0:nmax]. -/
def tau_permutation (d nmax : ℕ) : NpMat := npTrunc (npKron (npEye 2) (tauBase d)) nmax

/-- phi_permutation_k of the example: returns the raw base matrix Vk (the nmax
argument is accepted but unused in the source). -/
def phi_permutation_k (k d nmax : ℕ) : NpMat := phiBase k d

/-- psi_permutation_k of the example: returns the raw base matrix Wk (the nmax
argument is accepted but unused in the source). -/
def psi_permutation_k (k d nmax : ℕ) : NpMat := psiBase k d

/-- numpy .sum() of a matrix: the sum of all in-range entries. -/
def matSum (A : NpMat) : ℚ :=
  ((List.range A.rows).map fun r => ((List.range A.cols).map fun c => A.entry r c).sum).sum

/-- Modelled from the spec: a ciphertext of the leveled engine (the engine is
repository code not under src/).  It carries the decoded slot vector it
encrypts, its scale, its level (position in the modulus chain, counted as the
number of rescales still possible) and its size. -/
structure Ct where
  vec : List ℚ
  scale : ℚ
  level : ℕ
  size : ℕ
deriving DecidableEq

/-- Modelled from the spec: a plaintext, an encoded slot vector with scale and
level metadata for alignment against ciphertexts. -/
structure Pt where
  vec : List ℚ
  scale : ℚ
  level : ℕ
deriving DecidableEq

/-- Modelled from the spec: the static data of the engine: the slot count of the
encoder, the top level of fresh encodings, and the modulus dropped when
rescaling away from each level. -/
structure Engine where
  slotCount : ℕ
  topLevel : ℕ
  chain : ℕ → ℚ

/-- Modelled from the spec: encode(vector, scale) at the engine's top level,
zero-padding the vector to the slot count. -/
def Engine.encode (E : Engine) (v : List ℚ) (s : ℚ) : Pt :=
  ⟨padTo E.slotCount v, s, E.topLevel⟩

/-- Modelled from the spec: mod-switch of a plaintext to a target level; the
level only ever decreases, switching up fails. -/
def Engine.modSwitchPt (E : Engine) (p : Pt) (target : ℕ) : Except Err Pt :=
  if target ≤ p.level then .ok ⟨p.vec, p.scale, target⟩ else .error .levelUp

/-- Modelled from the spec: mod-switch of a ciphertext to a target level; the
level only ever decreases, switching up fails.  Scale is unchanged. -/
def Engine.modSwitchCt (E : Engine) (c : Ct) (target : ℕ) : Except Err Ct :=
  if target ≤ c.level then .ok ⟨c.vec, c.scale, target, c.size⟩ else .error .levelUp

/-- Modelled from the spec: rotate(ct, steps): cyclic slot rotation, scale and
level unchanged. -/
def Engine.rotate (E : Engine) (c : Ct) (l : ℕ) : Ct :=
  ⟨rotL c.vec l, c.scale, c.level, c.size⟩

/-- Modelled from the spec: multiplyPlain(ct, pt): scales multiply, level
unchanged, no size growth; operands must sit at the same level. -/
def Engine.multiplyPlain (E : Engine) (c : Ct) (p : Pt) : Except Err Ct :=
  if c.level = p.level then .ok ⟨elemMulL c.vec p.vec, c.scale * p.scale, c.level, c.size⟩
  else .error .levelMismatch

/-- Modelled from the spec: multiply(ct, ct): scales multiply, size grows,
level unchanged; operands must sit at the same level. -/
def Engine.multiply (E : Engine) (a b : Ct) : Except Err Ct :=
  if a.level = b.level then
    .ok ⟨elemMulL a.vec b.vec, a.scale * b.scale, a.level, a.size + b.size - 1⟩
  else .error .levelMismatch

/-- Modelled from the spec: add(ct, ct): requires equal level and equal scale
on both operands, fails otherwise. -/
def Engine.add (E : Engine) (a b : Ct) : Except Err Ct :=
  if a.level = b.level then
    if a.scale = b.scale then .ok ⟨addL a.vec b.vec, a.scale, a.level, max a.size b.size⟩
    else .error .scaleMismatch
  else .error .levelMismatch

/-- Modelled from the spec: relinearize(ct): restores minimal size, scale and
level unchanged. -/
def Engine.relinearize (E : Engine) (c : Ct) : Ct := ⟨c.vec, c.scale, c.level, 2⟩

/-- Modelled from the spec: rescale(ct): level decreases by one, scale divided
by the dropped modulus; fails when the chain is exhausted. -/
def Engine.rescale (E : Engine) (c : Ct) : Except Err Ct :=
  if c.level = 0 then .error .budget
  else .ok ⟨c.vec, c.scale / E.chain c.level, c.level - 1, c.size⟩

/-- set_scale of a ciphertext: a metadata-only override. -/
def Ct.set_scale (c : Ct) (s : ℚ) : Ct := ⟨c.vec, s, c.level, c.size⟩

/-- Effectful left fold over a list in Except, the loop shape of the example. -/
def foldlE {α β : Type} (f : β → α → Except Err β) : β → List α → Except Err β
  | b, [] => .ok b
  | b, a :: l => Except.bind (f b a) fun b' => foldlE f b' l

/-- Modelled from the spec: add_many of the engine (not in the spec's contract
list): the running sum of a nonempty vector of ciphertexts under add; an empty
input is an error, matching the engine's add_many precondition. -/
def Engine.addMany (E : Engine) (cs : List Ct) : Except Err Ct :=
  match cs with
  | [] => .error .emptyAdd
  | c :: rest => foldlE (fun a b => E.add a b) c rest

/-- One iteration of the lin_trans loop: extract the l-th diagonal, skip it when
its absolute sum is zero, otherwise encode it at the input's scale, mod-switch
the plaintext to the input's level, rotate the input by l, multiply by the
plaintext and append the term to the accumulator list. -/
def lt_step (E : Engine) (U : NpMat) (ct : Ct) (acc : List Ct) (l : ℕ) :
    Except Err (List Ct) :=
  Except.bind (diag_repr U l) fun ulv =>
    if (ulv.map fun x => |x|).sum = 0 then .ok acc
    else
      Except.bind (E.modSwitchPt (E.encode ulv ct.scale) ct.level) fun ul =>
        Except.bind (E.multiplyPlain (E.rotate ct l) ul) fun ct_l =>
          .ok (acc ++ [ct_l])

/-- The accumulator list built by the lin_trans loop over l in range N. -/
def lin_trans_acc (E : Engine) (U : NpMat) (ct : Ct) : Except Err (List Ct) :=
  foldlE (lt_step E U ct) [] (List.range U.rows)

/-- lin_trans of the example: reject non-square U, build the per-diagonal terms,
add_many them, and, when relinearization keys were supplied, relinearize and
then rescale the result. -/
def lin_trans (E : Engine) (U : NpMat) (ct : Ct) (relin : Bool) : Except Err Ct :=
  if U.rows ≠ U.cols then .error .shape
  else
    Except.bind (lin_trans_acc E U ct) fun acc =>
      Except.bind (E.addMany acc) fun out =>
        if relin then E.rescale (E.relinearize out) else .ok out

/-- cA_x_cB of the example: ciphertext-ciphertext multiply, relinearize,
rescale. -/
def cA_x_cB (E : Engine) (a b : Ct) : Except Err Ct :=
  Except.bind (E.multiply a b) fun c => E.rescale (E.relinearize c)

/-- The first-stage transform of cA_dot_cB on ct_A: lin_trans with the sigma
permutation, with relinearization keys supplied. -/
def matmul_A0 (E : Engine) (ctA : Ct) (d : ℕ) : Except Err Ct :=
  lin_trans E (sigma_permutation d E.slotCount) ctA true

/-- The first-stage transform of cA_dot_cB on ct_B: lin_trans with the tau
permutation, with relinearization keys supplied. -/
def matmul_B0 (E : Engine) (ctB : Ct) (d : ℕ) : Except Err Ct :=
  lin_trans E (tau_permutation d E.slotCount) ctB true

/-- One iteration of the k loop of cA_dot_cB: skip k when either permutation
matrix sums to zero, otherwise apply the two per-step transforms (with
relinearization keys) and append them to the two lists. -/
def mm_k_step (E : Engine) (d nmax : ℕ) (ctA0 ctB0 : Ct) (p : List Ct × List Ct) (k : ℕ) :
    Except Err (List Ct × List Ct) :=
  if matSum (phi_permutation_k k d nmax) = 0 ∨ matSum (psi_permutation_k k d nmax) = 0 then
    .ok p
  else
    Except.bind (lin_trans E (phi_permutation_k k d nmax) ctA0 true) fun a =>
      Except.bind (lin_trans E (psi_permutation_k k d nmax) ctB0 true) fun b =>
        .ok (p.1 ++ [a], p.2 ++ [b])

/-- One iteration of the accumulation loop of cA_dot_cB, after the elementwise
product of the k-th pair has been formed: mod-switch the accumulator to the
term's parms, override the term's scale with the accumulator's scale, add. -/
def matmul_accum_step (E : Engine) (ctAB ctABk : Ct) : Except Err Ct :=
  Except.bind (E.modSwitchCt ctAB ctABk.level) fun ctAB' =>
    E.add ctAB' (ctABk.set_scale ctAB'.scale)

/-- The body of the accumulation loop of cA_dot_cB: form the elementwise product
of the k-th pair, then align-and-add it into the accumulator. -/
def mm_acc_loop_step (E : Engine) (ctAB : Ct) (ab : Ct × Ct) : Except Err Ct :=
  Except.bind (cA_x_cB E ab.1 ab.2) fun ctABk => matmul_accum_step E ctAB ctABk

/-- cA_dot_cB of the example: capacity check (d·d against half the slot count,
with real division, i.e. 2·d·d against the slot count), the two first-stage
transforms, the k loop of per-step transforms, the elementwise product of the
stage-one pair, and the accumulation loop. -/
def cA_dot_cB (E : Engine) (ctA ctB : Ct) (d : ℕ) : Except Err Ct :=
  if 2 * (d * d) > E.slotCount then .error .capacity
  else
    Except.bind (matmul_A0 E ctA d) fun ctA0 =>
      Except.bind (matmul_B0 E ctB d) fun ctB0 =>
        Except.bind
          (foldlE (mm_k_step E d E.slotCount ctA0 ctB0) ([], []) (List.range' 1 (d - 1)))
          fun ks =>
            Except.bind (cA_x_cB E ctA0 ctB0) fun ctAB =>
              foldlE (mm_acc_loop_step E) ctAB (ks.1.zip ks.2)

/-- Row-major flattening of a matrix. -/
def matFlatten (A : NpMat) : List ℚ :=
  (List.range A.rows).flatMap fun r => (List.range A.cols).map fun c => A.entry r c

/-- encrypt_array of the example: flatten row-major, tile int(Nmax/N/M) times,
encode at the given scale (zero-padding the slot vector) and encrypt at the top
level.  Encryption is modelled as exact on the decoded vector. -/
def encrypt_array (E : Engine) (A : NpMat) (s : ℚ) : Ct :=
  ⟨padTo E.slotCount ((List.replicate (E.slotCount / A.cols / A.rows) (matFlatten A)).flatten),
    s, E.topLevel, 2⟩

/-- decrypt_array of the example: decrypt, decode, keep the first M·N slots and
reshape to an M × N matrix.  Decryption is modelled as exact on the decoded
vector. -/
def decrypt_array (c : Ct) (M N : ℕ) : NpMat :=
  ⟨M, N, fun r j => (c.vec.take (M * N)).getD (r * N + j) 0⟩

/-- One offset of the unencrypted simulation of the lin_trans loop: none when
the skip heuristic is on and the diagonal has zero absolute sum, otherwise the
elementwise product of the rotated input with the zero-padded diagonal. -/
def termF (skip : Bool) (U : NpMat) (m : List ℚ) (l : ℕ) : Option (List ℚ) :=
  if skip = true ∧ ((diagConcat U l).map fun x => |x|).sum = 0 then none
  else some (elemMulL (rotL m l) (padTo m.length (diagConcat U l)))

/-- The retained terms of the unencrypted lin_trans simulation. -/
def lin_trans_terms (skip : Bool) (U : NpMat) (m : List ℚ) : List (List ℚ) :=
  (List.range U.rows).filterMap (termF skip U m)

/-- The unencrypted simulation of lin_trans: the sum of the retained terms over
the slot vector. -/
def lin_trans_sim (skip : Bool) (U : NpMat) (m : List ℚ) : List ℚ :=
  sumTerms m.length (lin_trans_terms skip U m)

/-- One step k of the unencrypted simulation of the cA_dot_cB loop: none when
the skip heuristic is on and either permutation matrix sums to zero, otherwise
the elementwise product of the two per-step transforms. -/
def kTermF (skip : Bool) (d nmax : ℕ) (A0 B0 : List ℚ) (k : ℕ) : Option (List ℚ) :=
  if skip = true ∧
      (matSum (phi_permutation_k k d nmax) = 0 ∨ matSum (psi_permutation_k k d nmax) = 0) then
    none
  else
    some (elemMulL (lin_trans_sim skip (phi_permutation_k k d nmax) A0)
      (lin_trans_sim skip (psi_permutation_k k d nmax) B0))

/-- The unencrypted simulation of cA_dot_cB: the two stage-one transforms, their
elementwise product as the initial accumulator, and the retained k terms folded
in by addition. -/
def cA_dot_cB_sim (skip : Bool) (d nmax : ℕ) (a b : List ℚ) : List ℚ :=
  ((List.range' 1 (d - 1)).filterMap
      (kTermF skip d nmax (lin_trans_sim skip (sigma_permutation d nmax) a)
        (lin_trans_sim skip (tau_permutation d nmax) b))).foldl
    addL
    (elemMulL (lin_trans_sim skip (sigma_permutation d nmax) a)
      (lin_trans_sim skip (tau_permutation d nmax) b))

/-- The computation never fails with the given error. -/
def NeverErr {α : Type} (e : Err) (x : Except Err α) : Prop :=
  ∀ e', x = .error e' → e' ≠ e

/-- The claimed (spec-side) form of phi_permutation_k for the refinement
comparison of C3: the base matrix duplicated by np.kron(np.eye(2), .) and
sliced to [0:nmax, 0:nmax], exactly as the spec describes all four generators. -/
def phi_permutation_claimed (k d nmax : ℕ) : NpMat :=
  npTrunc (npKron (npEye 2) (phiBase k d)) nmax

/-- Concrete engine for the examples: 2 slots, top level 1, modulus 2 at every level. -/
def exEngine : Engine := ⟨2, 1, fun _ => 2⟩

/-- Concrete input ciphertext: 2 slots of ones, scale 4, level 1, size 2. -/
def exCt : Ct := ⟨[1, 1], 4, 1, 2⟩

/-- The value of the first-stage transform of cA_dot_cB on exCt with d = 1. -/
def exA0 : Ct := ⟨[1, 1], 8, 0, 2⟩

/-- Concrete engine with 8 slots for the packing example. -/
def packEngine : Engine := ⟨8, 1, fun _ => 2⟩

/-- Concrete accumulator for the accumulation-step examples. -/
def exAcc : Ct := ⟨[1, 2], 3, 5, 2⟩

/-- Concrete term for the accumulation-step examples: a different scale and a
lower level than the accumulator. -/
def exTerm : Ct := ⟨[10, 20], 5, 4, 3⟩

/-- The result of the accumulation step on exAcc and exTerm. -/
def exAccRes : Ct := ⟨[11, 22], 3, 4, 3⟩

/-- Concrete 2 by 2 matrix with rows [1, 2] and [3, 4]. -/
def exU : NpMat := ⟨2, 2, fun r c => (([[1, 2], [3, 4]] : List (List ℚ)).getD r []).getD c 0⟩

/-- The all-zero 2 by 2 matrix. -/
def exUzero : NpMat := ⟨2, 2, fun _ _ => 0⟩

/-- Concrete engine with 4 slots for the capacity-failure example. -/
def capEngine : Engine := ⟨4, 3, fun _ => 2⟩

/-- Concrete length-8 slot vector of ones. -/
def exVec8 : List ℚ := List.replicate 8 1

lemma ebind_ok {α β : Type} (a : α) (f : α → Except Err β) :
    Except.bind (Except.ok a) f = f a := rfl

lemma ebind_eq_ok {α β : Type} (x : Except Err α) (f : α → Except Err β) (b : β)
    (h : Except.bind x f = .ok b) : ∃ a, x = .ok a ∧ f a = .ok b := by
  cases x with
  | ok a => exact ⟨a, rfl, h⟩
  | error e => simp [Except.bind] at h

lemma getD_append_left (xs ys : List ℚ) (i : ℕ) (h : i < xs.length) :
    (xs ++ ys).getD i 0 = xs.getD i 0 :=
  List.getD_append xs ys 0 i h

lemma getD_append_right' (xs ys : List ℚ) (i : ℕ) (h : xs.length ≤ i) :
    (xs ++ ys).getD i 0 = ys.getD (i - xs.length) 0 :=
  List.getD_append_right xs ys 0 i h

lemma getD_take' (xs : List ℚ) (n i : ℕ) (h : i < n) :
    (xs.take n).getD i 0 = xs.getD i 0 := by
  simp [List.getD_eq_getElem?_getD, List.getElem?_take, h]

lemma getD_range_map (f : ℕ → ℚ) (n i : ℕ) (h : i < n) :
    ((List.range n).map f).getD i 0 = f i := by
  rw [List.getD_eq_getElem _ _ (by simpa using h)]
  rw [List.getElem_map, List.getElem_range]

lemma getD_zipWith (g : ℚ → ℚ → ℚ) (a b : List ℚ) (i : ℕ)
    (h1 : i < a.length) (h2 : i < b.length) :
    (List.zipWith g a b).getD i 0 = g (a.getD i 0) (b.getD i 0) := by
  rw [List.getD_eq_getElem _ _ (by simp [List.length_zipWith]; omega), List.getElem_zipWith,
    List.getD_eq_getElem _ _ h1, List.getD_eq_getElem _ _ h2]

lemma getD_replicate_zero (n i : ℕ) : (List.replicate n (0:ℚ)).getD i 0 = 0 := by
  by_cases h : i < n
  · rw [List.getD_eq_getElem _ _ (by simpa using h), List.getElem_replicate]
  · rw [List.getD_eq_default _ _ (by simpa using Nat.le_of_not_lt h)]

lemma length_addL (a b : List ℚ) : (addL a b).length = min a.length b.length := by
  simp [addL]

lemma length_elemMulL (a b : List ℚ) : (elemMulL a b).length = min a.length b.length := by
  simp [elemMulL]

lemma length_rotL (m : List ℚ) (l : ℕ) : (rotL m l).length = m.length := by
  simp [rotL]

lemma length_padTo (n : ℕ) (xs : List ℚ) : (padTo n xs).length = max xs.length n := by
  simp [padTo]
  omega

lemma range_map_sum (f : ℕ → ℚ) (n : ℕ) :
    ((List.range n).map f).sum = ∑ i ∈ Finset.range n, f i := by
  induction n with
  | zero => simp
  | succ n ih => rw [List.range_succ, Finset.sum_range_succ]; simp [ih]

lemma sum_shift_mod (g : ℕ → ℚ) (N i : ℕ) :
    ∑ l ∈ Finset.range N, g ((i + l) % N) = ∑ j ∈ Finset.range N, g j := by
  induction i with
  | zero =>
      refine Finset.sum_congr rfl fun l hl => ?_
      rw [Nat.zero_add, Nat.mod_eq_of_lt (Finset.mem_range.mp hl)]
  | succ i ih =>
      rw [← ih]
      rcases Nat.eq_zero_or_pos N with hN | hN
      · subst hN; simp
      · have h1 : ∑ l ∈ Finset.range N, g ((i + 1 + l) % N) =
            ∑ l ∈ Finset.range N, g ((i + (l + 1)) % N) :=
          Finset.sum_congr rfl fun l _ => by rw [show i + 1 + l = i + (l + 1) by omega]
        have h2 := Finset.sum_range_succ' (fun l => g ((i + l) % N)) N
        have h3 := Finset.sum_range_succ (fun l => g ((i + l) % N)) N
        have hF : g ((i + N) % N) = g ((i + 0) % N) := by
          rw [Nat.add_mod_right, Nat.add_zero]
        rw [h1]
        have h4 : (∑ l ∈ Finset.range N, g ((i + (l + 1)) % N)) + g ((i + 0) % N) =
            (∑ l ∈ Finset.range N, g ((i + l) % N)) + g ((i + N) % N) := by
          rw [← h2, h3]
        rw [hF] at h4
        linarith

lemma foldl_addL_spec (n : ℕ) (ts : List (List ℚ)) :
    ∀ (acc : List ℚ), (∀ t ∈ ts, t.length = n) → acc.length = n →
      (ts.foldl addL acc).length = n ∧
        ∀ i, i < n → (ts.foldl addL acc).getD i 0 =
          acc.getD i 0 + (ts.map fun t => t.getD i 0).sum := by
  induction ts with
  | nil => intro acc _ hacc; exact ⟨hacc, fun i _ => by simp⟩
  | cons t ts ih =>
      intro acc h hacc
      have ht : t.length = n := h t (by simp)
      have h1 : (addL acc t).length = n := by rw [length_addL, hacc, ht, Nat.min_self]
      obtain ⟨hl, hg⟩ := ih (addL acc t) (fun t' ht' => h t' (by simp [ht'])) h1
      refine ⟨hl, fun i hi => ?_⟩
      rw [List.foldl_cons, hg i hi]
      simp only [addL] at *
      rw [getD_zipWith _ _ _ i (by omega) (by omega)]
      simp only [List.map_cons, List.sum_cons]
      ring

lemma sumTerms_spec (n : ℕ) (ts : List (List ℚ)) (h : ∀ t ∈ ts, t.length = n) :
    (sumTerms n ts).length = n ∧
      ∀ i, i < n → (sumTerms n ts).getD i 0 = (ts.map fun t => t.getD i 0).sum := by
  obtain ⟨hl, hg⟩ := foldl_addL_spec n ts (List.replicate n 0) h (by simp)
  exact ⟨hl, fun i hi => by rw [sumTerms, hg i hi, getD_replicate_zero, zero_add]⟩

lemma nonneg_sum_zero {xs : List ℚ} (h0 : ∀ x ∈ xs, 0 ≤ x) (h : xs.sum = 0) :
    ∀ x ∈ xs, x = 0 := by
  induction xs with
  | nil => simp
  | cons a t ih =>
      simp only [List.sum_cons] at h
      have ha : 0 ≤ a := h0 a (by simp)
      have hts : 0 ≤ t.sum := List.sum_nonneg fun x hx => h0 x (by simp [hx])
      intro x hx
      rcases List.mem_cons.mp hx with rfl | hx'
      · linarith
      · exact ih (fun y hy => h0 y (by simp [hy])) (by linarith) x hx'

lemma abs_sum_zero {xs : List ℚ} (h : (xs.map fun x => |x|).sum = 0) : ∀ x ∈ xs, x = 0 := by
  intro x hx
  have key : ∀ y ∈ xs.map fun x => |x|, y = 0 := nonneg_sum_zero
    (by intro y hy; obtain ⟨z, _, rfl⟩ := List.mem_map.mp hy; exact abs_nonneg z) h
  exact abs_eq_zero.mp (key |x| (List.mem_map.mpr ⟨x, hx, rfl⟩))

lemma sum_map_abs_zero {xs : List ℚ} (h : ∀ x ∈ xs, x = 0) :
    (xs.map fun x => |x|).sum = 0 :=
  List.sum_eq_zero fun y hy => by
    obtain ⟨z, hz, rfl⟩ := List.mem_map.mp hy
    rw [h z hz, abs_zero]

lemma addL_zero_right (acc t : List ℚ) (hlen : acc.length ≤ t.length)
    (hz : ∀ x ∈ t, x = 0) : addL acc t = acc := by
  induction acc generalizing t with
  | nil => simp [addL]
  | cons a as ih =>
      cases t with
      | nil => simp at hlen
      | cons b bs =>
          simp only [addL, List.zipWith_cons_cons]
          rw [hz b (by simp)]
          rw [add_zero]
          exact congrArg (a :: ·) (ih bs (by simpa using hlen) fun x hx => hz x (by simp [hx]))

lemma addL_all_zero (a b : List ℚ) (ha : ∀ x ∈ a, x = 0) (hb : ∀ x ∈ b, x = 0) :
    ∀ y ∈ addL a b, y = 0 := by
  induction a generalizing b with
  | nil => simp [addL]
  | cons x xs ih =>
      cases b with
      | nil => simp [addL]
      | cons y ys =>
          intro z hzm
          simp only [addL, List.zipWith_cons_cons] at hzm
          rcases List.mem_cons.mp hzm with rfl | hm
          · rw [ha x (by simp), hb y (by simp), add_zero]
          · exact ih ys (fun u hu => ha u (by simp [hu]))
              (fun u hu => hb u (by simp [hu])) z hm

lemma elemMul_zero_right (a b : List ℚ) (hz : ∀ y ∈ b, y = 0) :
    ∀ z ∈ elemMulL a b, z = 0 := by
  induction a generalizing b with
  | nil => simp [elemMulL]
  | cons x xs ih =>
      cases b with
      | nil => simp [elemMulL]
      | cons y ys =>
          intro z hzm
          simp only [elemMulL, List.zipWith_cons_cons] at hzm
          rcases List.mem_cons.mp hzm with rfl | hm
          · rw [hz y (by simp), mul_zero]
          · exact ih ys (fun u hu => hz u (by simp [hu])) z hm

lemma elemMul_zero_left (a b : List ℚ) (hz : ∀ y ∈ a, y = 0) :
    ∀ z ∈ elemMulL a b, z = 0 := by
  induction a generalizing b with
  | nil => simp [elemMulL]
  | cons x xs ih =>
      cases b with
      | nil => simp [elemMulL]
      | cons y ys =>
          intro z hzm
          simp only [elemMulL, List.zipWith_cons_cons] at hzm
          rcases List.mem_cons.mp hzm with rfl | hm
          · rw [hz x (by simp), zero_mul]
          · exact ih ys (fun u hu => hz u (by simp [hu])) z hm

lemma padTo_all_zero (n : ℕ) (xs : List ℚ) (hz : ∀ x ∈ xs, x = 0) :
    ∀ y ∈ padTo n xs, y = 0 := by
  intro y hy
  rcases List.mem_append.mp hy with h | h
  · exact hz y h
  · exact List.eq_of_mem_replicate h

lemma foldl_addL_all_zero (ts : List (List ℚ)) :
    ∀ (acc : List ℚ), (∀ x ∈ acc, x = 0) → (∀ t ∈ ts, ∀ y ∈ t, y = 0) →
      ∀ y ∈ ts.foldl addL acc, y = 0 := by
  induction ts with
  | nil => intro acc hacc _; exact hacc
  | cons t ts ih =>
      intro acc hacc hts
      rw [List.foldl_cons]
      exact ih (addL acc t) (addL_all_zero acc t hacc (hts t (by simp)))
        fun t' ht' => hts t' (by simp [ht'])

lemma foldlE_invariant {α β : Type} (P : β → Prop) (Q : α → Prop) (f : β → α → Except Err β)
    (hf : ∀ b a b', P b → Q a → f b a = .ok b' → P b') :
    ∀ (l : List α), (∀ a ∈ l, Q a) → ∀ b b', P b → foldlE f b l = .ok b' → P b' := by
  intro l
  induction l with
  | nil =>
      intro _ b b' hP h
      simp only [foldlE] at h
      cases h
      exact hP
  | cons a t ih =>
      intro hQ b b' hP h
      simp only [foldlE] at h
      obtain ⟨b1, hb1, h2⟩ := ebind_eq_ok _ _ _ h
      exact ih (fun x hx => hQ x (by simp [hx])) b1 b'
        (hf b a b1 hP (hQ a (by simp)) hb1) h2

lemma neverErr_ok {α : Type} (e : Err) (a : α) : NeverErr e (Except.ok a) := by
  intro e' h
  exact Except.noConfusion h

lemma neverErr_error {α : Type} (e e1 : Err) (hne : e1 ≠ e) :
    NeverErr e (Except.error e1 : Except Err α) := by
  intro e' h
  cases h
  exact hne

lemma neverErr_bind {α β : Type} (e : Err) (x : Except Err α) (f : α → Except Err β)
    (hx : NeverErr e x) (hf : ∀ a, NeverErr e (f a)) : NeverErr e (Except.bind x f) := by
  intro e' h
  cases x with
  | ok a =>
      simp only [Except.bind] at h
      exact hf a e' h
  | error e1 =>
      simp only [Except.bind] at h
      cases h
      exact hx _ rfl

lemma foldlE_neverErr {α β : Type} (e : Err) (f : β → α → Except Err β)
    (hf : ∀ b a, NeverErr e (f b a)) :
    ∀ (l : List α) (b : β), NeverErr e (foldlE f b l) := by
  intro l
  induction l with
  | nil =>
      intro b e' h
      simp only [foldlE] at h
      exact Except.noConfusion h
  | cons a t ih =>
      intro b
      simp only [foldlE]
      exact neverErr_bind e (f b a) _ (hf b a) fun b1 => ih b1

lemma diagConcat_length (U : NpMat) (l : ℕ) (hsq : U.rows = U.cols) (hl : l < U.rows) :
    (diagConcat U l).length = U.rows := by
  have htn1 : ((l : ℤ)).toNat = l := by omega
  have htn2 : (-((l : ℤ) - (U.rows : ℤ))).toNat = U.rows - l := by omega
  unfold diagConcat npDiag
  rw [if_pos (by exact_mod_cast Nat.zero_le l), if_neg (by omega), htn1, htn2]
  simp only [List.length_append, List.length_map, List.length_range]
  omega

lemma diagConcat_getD (U : NpMat) (l : ℕ) (hsq : U.rows = U.cols) (hl : l < U.rows)
    (i : ℕ) (hi : i < U.rows) :
    (diagConcat U l).getD i 0 = U.entry i ((i + l) % U.rows) := by
  have htn1 : ((l : ℤ)).toNat = l := by omega
  have htn2 : (-((l : ℤ) - (U.rows : ℤ))).toNat = U.rows - l := by omega
  unfold diagConcat npDiag
  rw [if_pos (by exact_mod_cast Nat.zero_le l), if_neg (by omega), htn1, htn2]
  have hm1 : min U.rows (U.cols - l) = U.rows - l := by omega
  have hm2 : min (U.rows - (U.rows - l)) U.cols = l := by omega
  rw [hm1, hm2]
  by_cases hcase : i < U.rows - l
  · rw [getD_append_left _ _ _ (by simpa using hcase), getD_range_map _ _ _ hcase,
      Nat.mod_eq_of_lt (by omega)]
  · have hlen : ((List.range (U.rows - l)).map fun i => U.entry i (i + l)).length = U.rows - l := by
      simp
    rw [getD_append_right' _ _ _ (by omega), hlen, getD_range_map _ _ _ (by omega)]
    have e1 : i - (U.rows - l) + (U.rows - l) = i := by omega
    have e2 : (i + l) % U.rows = i - (U.rows - l) := by
      rw [show i + l = U.rows + (i - (U.rows - l)) by omega, Nat.add_mod_left,
        Nat.mod_eq_of_lt (by omega)]
    rw [e1, e2]

lemma buildPerm_apply (ps : List (ℕ × ℕ)) (r c : ℕ) :
    buildPerm ps r c = if (r, c) ∈ ps then 1 else 0 := by
  have key : ∀ (qs : List (ℕ × ℕ)) (f : ℕ → ℕ → ℚ) (r c : ℕ),
      qs.foldl (fun f p => fun r c => if r = p.1 ∧ c = p.2 then 1 else f r c) f r c =
        if (r, c) ∈ qs then 1 else f r c := by
    intro qs
    induction qs with
    | nil => intro f r c; simp
    | cons p t ih =>
        intro f r c
        rw [List.foldl_cons, ih]
        by_cases hm : (r, c) ∈ t
        · simp [hm]
        · by_cases hp : r = p.1 ∧ c = p.2
          · have : (r, c) = p := Prod.ext hp.1 hp.2
            simp [hm, hp, this]
          · have : ¬ (r, c) = p := fun hc => hp ⟨congrArg Prod.fst hc, congrArg Prod.snd hc⟩
            simp [hm, hp, this]
  exact key ps (fun _ _ => 0) r c

lemma mem_prodPairs (d i j : ℕ) : (i, j) ∈ prodPairs d ↔ i < d ∧ j < d := by
  unfold prodPairs
  constructor
  · intro h
    obtain ⟨a, ha, hb⟩ := List.mem_flatMap.mp h
    obtain ⟨b, hbr, heq⟩ := List.mem_map.mp hb
    obtain ⟨h1, h2⟩ := Prod.mk.injEq a b i j ▸ heq
    subst h1
    subst h2
    exact ⟨List.mem_range.mp ha, List.mem_range.mp hbr⟩
  · rintro ⟨hi, hj⟩
    exact List.mem_flatMap.mpr ⟨i, List.mem_range.mpr hi,
      List.mem_map.mpr ⟨j, List.mem_range.mpr hj, rfl⟩⟩

lemma row_decomp (d i j : ℕ) (hj : j < d) : (d * i + j) / d = i ∧ (d * i + j) % d = j := by
  have hd : 0 < d := by omega
  constructor
  · rw [Nat.mul_add_div hd, Nat.div_eq_of_lt hj, Nat.add_zero]
  · rw [Nat.mul_add_mod, Nat.mod_eq_of_lt hj]

lemma permBase_apply (d : ℕ) (colf : ℕ → ℕ → ℕ) (i j c : ℕ) (hi : i < d) (hj : j < d) :
    (permBase d colf).entry (d * i + j) c = if c = colf i j then 1 else 0 := by
  show buildPerm ((prodPairs d).map fun p => (d * p.1 + p.2, colf p.1 p.2)) (d * i + j) c =
    if c = colf i j then 1 else 0
  rw [buildPerm_apply]
  have hmem : ((d * i + j, c) ∈ (prodPairs d).map fun p => (d * p.1 + p.2, colf p.1 p.2)) ↔
      c = colf i j := by
    constructor
    · intro hm
      obtain ⟨⟨i', j'⟩, hp, heq⟩ := List.mem_map.mp hm
      obtain ⟨hi', hj'⟩ := (mem_prodPairs d i' j').mp hp
      have hrow : d * i' + j' = d * i + j := congrArg Prod.fst heq
      have hcol : colf i' j' = c := congrArg Prod.snd heq
      have hii : i' = i := by
        have ha := (row_decomp d i' j' hj').1
        have hb := (row_decomp d i j hj).1
        rw [hrow] at ha
        omega
      have hjj : j' = j := by
        have ha := (row_decomp d i' j' hj').2
        have hb := (row_decomp d i j hj).2
        rw [hrow] at ha
        omega
      subst hii
      subst hjj
      exact hcol.symm
    · rintro rfl
      exact List.mem_map.mpr ⟨(i, j), (mem_prodPairs d i j).mpr ⟨hi, hj⟩, rfl⟩
  by_cases hc : c = colf i j
  · rw [if_pos (hmem.mpr hc), if_pos hc]
  · rw [if_neg (fun hm => hc (hmem.mp hm)), if_neg hc]

lemma permBase_entry_nonneg (d : ℕ) (colf : ℕ → ℕ → ℕ) (r c : ℕ) :
    0 ≤ (permBase d colf).entry r c := by
  show 0 ≤ buildPerm ((prodPairs d).map fun p => (d * p.1 + p.2, colf p.1 p.2)) r c
  rw [buildPerm_apply]
  split <;> norm_num

lemma row_lt_sq (d i j : ℕ) (hi : i < d) (hj : j < d) : d * i + j < d * d := by
  have h1 : d * (i + 1) = d * i + d := by ring
  have h2 : d * (i + 1) ≤ d * d := Nat.mul_le_mul_left d (by omega)
  omega

lemma div_mod_of_lt_two_mul (n r : ℕ) (h1 : n ≤ r) (h2 : r < 2 * n) :
    r / n = 1 ∧ r % n = r - n := by
  have hn : 0 < n := by omega
  have hr : r = n + (r - n) := by omega
  constructor
  · conv_lhs => rw [hr]
    rw [Nat.add_div_left _ hn, Nat.div_eq_of_lt (by omega)]
  · conv_lhs => rw [hr]
    rw [Nat.add_mod_left, Nat.mod_eq_of_lt (by omega)]

lemma kron_eye2_entry (B : NpMat) (r c : ℕ) (hr : r < 2 * B.rows) (hc : c < 2 * B.cols) :
    (npKron (npEye 2) B).entry r c =
      if r < B.rows ∧ c < B.cols then B.entry r c
      else if B.rows ≤ r ∧ B.cols ≤ c then B.entry (r - B.rows) (c - B.cols) else 0 := by
  show (if r / B.rows = c / B.cols then (1:ℚ) else 0) * B.entry (r % B.rows) (c % B.cols) = _
  by_cases h1 : r < B.rows <;> by_cases h2 : c < B.cols
  · rw [Nat.div_eq_of_lt h1, Nat.div_eq_of_lt h2, Nat.mod_eq_of_lt h1, Nat.mod_eq_of_lt h2]
    simp [h1, h2]
  · obtain ⟨hd, hm⟩ := div_mod_of_lt_two_mul B.cols c (by omega) hc
    rw [Nat.div_eq_of_lt h1, hd]
    have h3 : ¬ (B.rows ≤ r ∧ B.cols ≤ c) := by omega
    simp [h1, h2, h3]
  · obtain ⟨hd, hm⟩ := div_mod_of_lt_two_mul B.rows r (by omega) hr
    rw [Nat.div_eq_of_lt h2, hd]
    have : ¬ (r < B.rows ∧ c < B.cols) := by omega
    have h3 : ¬ (B.rows ≤ r ∧ B.cols ≤ c) := by omega
    simp [this, h3]
  · obtain ⟨hdr, hmr⟩ := div_mod_of_lt_two_mul B.rows r (by omega) hr
    obtain ⟨hdc, hmc⟩ := div_mod_of_lt_two_mul B.cols c (by omega) hc
    rw [hdr, hdc, hmr, hmc]
    have : ¬ (r < B.rows ∧ c < B.cols) := by omega
    have h3 : B.rows ≤ r ∧ B.cols ≤ c := by omega
    simp [this, h3]

lemma kron_eye2_topleft (B : NpMat) (r c : ℕ) (hr : r < B.rows) (hc : c < B.cols) :
    (npKron (npEye 2) B).entry r c = B.entry r c := by
  show (if r / B.rows = c / B.cols then (1:ℚ) else 0) * B.entry (r % B.rows) (c % B.cols) =
    B.entry r c
  rw [Nat.div_eq_of_lt hr, Nat.div_eq_of_lt hc, Nat.mod_eq_of_lt hr, Nat.mod_eq_of_lt hc]
  simp

lemma diag_repr_noCap (U : NpMat) (l : ℕ) : NeverErr .capacity (diag_repr U l) := by
  unfold diag_repr
  split
  · exact neverErr_error _ _ (by decide)
  · split
    · exact neverErr_error _ _ (by decide)
    · exact neverErr_ok _ _

lemma modSwitchPt_noCap (E : Engine) (p : Pt) (t : ℕ) : NeverErr .capacity (E.modSwitchPt p t) := by
  unfold Engine.modSwitchPt
  split
  · exact neverErr_ok _ _
  · exact neverErr_error _ _ (by decide)

lemma modSwitchCt_noCap (E : Engine) (c : Ct) (t : ℕ) : NeverErr .capacity (E.modSwitchCt c t) := by
  unfold Engine.modSwitchCt
  split
  · exact neverErr_ok _ _
  · exact neverErr_error _ _ (by decide)

lemma multiplyPlain_noCap (E : Engine) (c : Ct) (p : Pt) :
    NeverErr .capacity (E.multiplyPlain c p) := by
  unfold Engine.multiplyPlain
  split
  · exact neverErr_ok _ _
  · exact neverErr_error _ _ (by decide)

lemma multiply_noCap (E : Engine) (a b : Ct) : NeverErr .capacity (E.multiply a b) := by
  unfold Engine.multiply
  split
  · exact neverErr_ok _ _
  · exact neverErr_error _ _ (by decide)

lemma add_noCap (E : Engine) (a b : Ct) : NeverErr .capacity (E.add a b) := by
  unfold Engine.add
  split
  · split
    · exact neverErr_ok _ _
    · exact neverErr_error _ _ (by decide)
  · exact neverErr_error _ _ (by decide)

lemma rescale_noCap (E : Engine) (c : Ct) : NeverErr .capacity (E.rescale c) := by
  unfold Engine.rescale
  split
  · exact neverErr_error _ _ (by decide)
  · exact neverErr_ok _ _

lemma addMany_noCap (E : Engine) (cs : List Ct) : NeverErr .capacity (E.addMany cs) := by
  unfold Engine.addMany
  split
  · exact neverErr_error _ _ (by decide)
  · exact foldlE_neverErr _ _ (fun a b => add_noCap E a b) _ _

lemma lt_step_noCap (E : Engine) (U : NpMat) (ct : Ct) (acc : List Ct) (l : ℕ) :
    NeverErr .capacity (lt_step E U ct acc l) := by
  unfold lt_step
  refine neverErr_bind _ _ _ (diag_repr_noCap U l) fun ulv => ?_
  split
  · exact neverErr_ok _ _
  · refine neverErr_bind _ _ _ (modSwitchPt_noCap E _ _) fun ul => ?_
    refine neverErr_bind _ _ _ (multiplyPlain_noCap E _ _) fun ct_l => ?_
    exact neverErr_ok _ _

lemma lin_trans_noCap (E : Engine) (U : NpMat) (ct : Ct) (relin : Bool) :
    NeverErr .capacity (lin_trans E U ct relin) := by
  unfold lin_trans
  split
  · exact neverErr_error _ _ (by decide)
  · refine neverErr_bind _ _ _
      (foldlE_neverErr _ _ (fun acc l => lt_step_noCap E U ct acc l) _ _) fun acc => ?_
    refine neverErr_bind _ _ _ (addMany_noCap E acc) fun out => ?_
    split
    · exact rescale_noCap E _
    · exact neverErr_ok _ _

lemma cA_x_cB_noCap (E : Engine) (a b : Ct) : NeverErr .capacity (cA_x_cB E a b) := by
  unfold cA_x_cB
  exact neverErr_bind _ _ _ (multiply_noCap E a b) fun c => rescale_noCap E _

lemma mm_k_step_noCap (E : Engine) (d nmax : ℕ) (ctA0 ctB0 : Ct)
    (p : List Ct × List Ct) (k : ℕ) : NeverErr .capacity (mm_k_step E d nmax ctA0 ctB0 p k) := by
  unfold mm_k_step
  split
  · exact neverErr_ok _ _
  · refine neverErr_bind _ _ _ (lin_trans_noCap E _ _ _) fun a => ?_
    refine neverErr_bind _ _ _ (lin_trans_noCap E _ _ _) fun b => ?_
    exact neverErr_ok _ _

lemma matmul_accum_step_noCap (E : Engine) (a b : Ct) :
    NeverErr .capacity (matmul_accum_step E a b) := by
  unfold matmul_accum_step
  exact neverErr_bind _ _ _ (modSwitchCt_noCap E _ _) fun a' => add_noCap E _ _

lemma mm_acc_loop_step_noCap (E : Engine) (ctAB : Ct) (ab : Ct × Ct) :
    NeverErr .capacity (mm_acc_loop_step E ctAB ab) := by
  unfold mm_acc_loop_step
  exact neverErr_bind _ _ _ (cA_x_cB_noCap E _ _) fun c => matmul_accum_step_noCap E _ _

lemma lt_step_meta (E : Engine) (U : NpMat) (ct : Ct) (acc : List Ct) (l : ℕ) (acc' : List Ct)
    (h : lt_step E U ct acc l = .ok acc')
    (hP : ∀ c ∈ acc, c.scale = ct.scale * ct.scale ∧ c.level = ct.level) :
    ∀ c ∈ acc', c.scale = ct.scale * ct.scale ∧ c.level = ct.level := by
  unfold lt_step at h
  obtain ⟨ulv, hd, h2⟩ := ebind_eq_ok _ _ _ h
  by_cases hz : ((ulv.map fun x => |x|).sum = 0)
  · rw [if_pos hz] at h2
    cases h2
    exact hP
  · rw [if_neg hz] at h2
    obtain ⟨ul, hms, h3⟩ := ebind_eq_ok _ _ _ h2
    obtain ⟨ctl, hmp, h4⟩ := ebind_eq_ok _ _ _ h3
    cases h4
    unfold Engine.modSwitchPt at hms
    split at hms
    · cases hms
      unfold Engine.multiplyPlain at hmp
      split at hmp
      · cases hmp
        intro c hc
        rcases List.mem_append.mp hc with hc | hc
        · exact hP c hc
        · have : c = ⟨elemMulL (E.rotate ct l).vec (padTo E.slotCount ulv), ct.scale * ct.scale,
              ct.level, ct.size⟩ := by simpa using hc
          rw [this]
          exact ⟨rfl, rfl⟩
      · exact Except.noConfusion hmp
    · exact Except.noConfusion hms

lemma lin_trans_acc_meta (E : Engine) (U : NpMat) (ct : Ct) (acc : List Ct)
    (h : lin_trans_acc E U ct = .ok acc) :
    ∀ c ∈ acc, c.scale = ct.scale * ct.scale ∧ c.level = ct.level :=
  foldlE_invariant (fun bs => ∀ c ∈ bs, c.scale = ct.scale * ct.scale ∧ c.level = ct.level)
    (fun _ => True) (lt_step E U ct)
    (fun b a b' hP _ hf => lt_step_meta E U ct b a b' hf hP)
    (List.range U.rows) (fun _ _ => trivial) [] acc (by simp) h

lemma addMany_meta (E : Engine) (s : ℚ) (lv : ℕ) (cs : List Ct) (out : Ct)
    (h : E.addMany cs = .ok out) (hP : ∀ c ∈ cs, c.scale = s ∧ c.level = lv) :
    out.scale = s ∧ out.level = lv := by
  cases cs with
  | nil => exact Except.noConfusion h
  | cons c rest =>
      refine foldlE_invariant (fun x : Ct => x.scale = s ∧ x.level = lv) (fun _ => True)
        (fun a b => E.add a b) ?_ rest (fun _ _ => trivial) c out (hP c (by simp)) h
      intro b a b' hPb _ hstep
      have hstep' : E.add b a = .ok b' := hstep
      unfold Engine.add at hstep'
      split at hstep'
      · split at hstep'
        · cases hstep'
          exact ⟨hPb.1, hPb.2⟩
        · exact Except.noConfusion hstep'
      · exact Except.noConfusion hstep'

lemma lin_trans_relin_meta (E : Engine) (U : NpMat) (ct : Ct) (out : Ct)
    (h : lin_trans E U ct true = .ok out) :
    out.level + 1 = ct.level ∧ out.scale = ct.scale * ct.scale / E.chain ct.level := by
  unfold lin_trans at h
  split at h
  · exact Except.noConfusion h
  · obtain ⟨acc, hacc, h2⟩ := ebind_eq_ok _ _ _ h
    obtain ⟨o, ho, h3⟩ := ebind_eq_ok _ _ _ h2
    obtain ⟨hs, hlv⟩ := addMany_meta E (ct.scale * ct.scale) ct.level acc o ho
      (lin_trans_acc_meta E U ct acc hacc)
    rw [if_pos rfl] at h3
    unfold Engine.rescale Engine.relinearize at h3
    split at h3
    · exact Except.noConfusion h3
    · cases h3
      rename_i hnz
      refine ⟨?_, ?_⟩
      · show o.level - 1 + 1 = ct.level
        simp only at hnz
        omega
      · show o.scale / E.chain o.level = ct.scale * ct.scale / E.chain ct.level
        rw [hs, hlv]

lemma termF_length (skip : Bool) (U : NpMat) (m : List ℚ) (l : ℕ) (t : List ℚ)
    (h : termF skip U m l = some t) : t.length = m.length := by
  unfold termF at h
  split at h
  · exact Option.noConfusion h
  · cases h
    rw [length_elemMulL, length_rotL, length_padTo]
    omega

lemma lin_trans_sim_length (skip : Bool) (U : NpMat) (m : List ℚ) :
    (lin_trans_sim skip U m).length = m.length := by
  unfold lin_trans_sim
  refine (sumTerms_spec m.length _ ?_).1
  intro t ht
  obtain ⟨l, _, hsome⟩ := List.mem_filterMap.mp ht
  exact termF_length skip U m l t hsome

lemma foldl_addL_filterMap_congr {β : Type} (n : ℕ) (g1 g2 : β → Option (List ℚ))
    (hlen : ∀ x t, g2 x = some t → t.length = n)
    (hcase : ∀ x, g1 x = g2 x ∨
      (g1 x = none ∧ ∃ t, g2 x = some t ∧ ∀ y ∈ t, y = 0)) :
    ∀ (ls : List β) (acc : List ℚ), acc.length = n →
      (ls.filterMap g1).foldl addL acc = (ls.filterMap g2).foldl addL acc := by
  intro ls
  induction ls with
  | nil => intro acc _; rfl
  | cons x t ih =>
      intro acc hacc
      rcases hcase x with heq | ⟨h1, tt, h2, hz⟩
      · rw [List.filterMap_cons, List.filterMap_cons, heq]
        cases hg : g2 x with
        | none => exact ih acc hacc
        | some tx =>
            simp only [List.foldl_cons]
            exact ih (addL acc tx)
              (by rw [length_addL, hacc, hlen x tx hg, Nat.min_self])
      · rw [List.filterMap_cons, List.filterMap_cons, h1, h2]
        simp only [List.foldl_cons]
        rw [addL_zero_right acc tt (by rw [hacc, hlen x tt h2]) hz]
        exact ih acc hacc

lemma lin_trans_sim_skip_eq (U : NpMat) (m : List ℚ) :
    lin_trans_sim true U m = lin_trans_sim false U m := by
  unfold lin_trans_sim lin_trans_terms sumTerms
  refine foldl_addL_filterMap_congr m.length (termF true U m) (termF false U m)
    (fun x t h => termF_length false U m x t h) ?_ _ _ (by simp)
  intro l
  by_cases hz : (((diagConcat U l).map fun x => |x|).sum = 0)
  · right
    refine ⟨by rw [termF, if_pos ⟨rfl, hz⟩], _, by rw [termF, if_neg (by simp)], ?_⟩
    exact elemMul_zero_right _ _ (padTo_all_zero _ _ (abs_sum_zero hz))
  · left
    rw [termF, termF, if_neg (by simp [hz]), if_neg (by simp)]

lemma npDiag_mem_zero (U : NpMat) (k : ℤ)
    (hU : ∀ r c, r < U.rows → c < U.cols → U.entry r c = 0) :
    ∀ x ∈ npDiag U k, x = 0 := by
  intro x hx
  unfold npDiag at hx
  split at hx
  · obtain ⟨i, hir, heq⟩ := List.mem_map.mp hx
    have hi := List.mem_range.mp hir
    rw [← heq]
    exact hU i (i + k.toNat) (by omega) (by omega)
  · obtain ⟨i, hir, heq⟩ := List.mem_map.mp hx
    have hi := List.mem_range.mp hir
    rw [← heq]
    exact hU (i + (-k).toNat) i (by omega) (by omega)

lemma diagConcat_mem_zero (U : NpMat) (l : ℕ)
    (hU : ∀ r c, r < U.rows → c < U.cols → U.entry r c = 0) :
    ∀ x ∈ diagConcat U l, x = 0 := by
  intro x hx
  rcases List.mem_append.mp hx with h | h
  · exact npDiag_mem_zero U _ hU x h
  · exact npDiag_mem_zero U _ hU x h

lemma lin_trans_sim_zero (skip : Bool) (U : NpMat) (m : List ℚ)
    (hU : ∀ r c, r < U.rows → c < U.cols → U.entry r c = 0) :
    ∀ y ∈ lin_trans_sim skip U m, y = 0 := by
  unfold lin_trans_sim sumTerms
  refine foldl_addL_all_zero _ _ (fun x hx => List.eq_of_mem_replicate hx) ?_
  intro t ht
  obtain ⟨l, _, hsome⟩ := List.mem_filterMap.mp ht
  unfold termF at hsome
  split at hsome
  · exact Option.noConfusion hsome
  · cases hsome
    exact elemMul_zero_right _ _ (padTo_all_zero _ _ (diagConcat_mem_zero U l hU))

lemma matSum_zero_entries (A : NpMat) (hnn : ∀ r c, 0 ≤ A.entry r c) (h : matSum A = 0) :
    ∀ r c, r < A.rows → c < A.cols → A.entry r c = 0 := by
  intro r c hr hc
  unfold matSum at h
  have hrow_nonneg : ∀ t ∈ (List.range A.rows).map
      (fun r => ((List.range A.cols).map fun c => A.entry r c).sum), 0 ≤ t := by
    intro t ht
    obtain ⟨r', _, rfl⟩ := List.mem_map.mp ht
    refine List.sum_nonneg ?_
    intro x hx
    obtain ⟨c', _, rfl⟩ := List.mem_map.mp hx
    exact hnn r' c'
  have hrow := nonneg_sum_zero hrow_nonneg h _
    (List.mem_map.mpr ⟨r, List.mem_range.mpr hr, rfl⟩)
  refine nonneg_sum_zero ?_ hrow _ (List.mem_map.mpr ⟨c, List.mem_range.mpr hc, rfl⟩)
  intro x hx
  obtain ⟨c', _, rfl⟩ := List.mem_map.mp hx
  exact hnn r c'

lemma flat_length (n L : ℕ) (f : ℕ → ℕ → ℚ) :
    ((List.range n).flatMap fun i => (List.range L).map (f i)).length = n * L := by
  rw [List.length_flatMap]
  have h1 : (List.range n).map (List.length ∘ fun i => (List.range L).map (f i)) =
      (List.range n).map fun _ => L := by
    refine List.map_congr_left ?_
    intro a _
    simp
  rw [h1, List.map_const', List.sum_replicate]
  simp [mul_comm]

lemma flat_getD (n L : ℕ) (f : ℕ → ℕ → ℚ) (r c : ℕ) (hr : r < n) (hc : c < L) :
    ((List.range n).flatMap fun i => (List.range L).map (f i)).getD (r * L + c) 0 = f r c := by
  induction n with
  | zero => omega
  | succ n ih =>
      rw [List.range_succ, List.flatMap_append]
      by_cases hcase : r < n
      · rw [getD_append_left]
        · exact ih hcase
        · rw [flat_length]
          calc r * L + c < r * L + L := by omega
            _ = (r + 1) * L := by ring
            _ ≤ n * L := Nat.mul_le_mul_right L (by omega)
      · have hr' : r = n := by omega
        subst hr'
        rw [getD_append_right' _ _ _ (by rw [flat_length]; omega)]
        rw [flat_length]
        simp only [List.flatMap_cons, List.flatMap_nil, List.append_nil]
        rw [show r * L + c - r * L = c by omega]
        exact getD_range_map (f r) L c hc

lemma matFlatten_length (A : NpMat) : (matFlatten A).length = A.rows * A.cols :=
  flat_length A.rows A.cols A.entry

lemma matFlatten_getD (A : NpMat) (r c : ℕ) (hr : r < A.rows) (hc : c < A.cols) :
    (matFlatten A).getD (r * A.cols + c) 0 = A.entry r c :=
  flat_getD A.rows A.cols A.entry r c hr hc

/-- C4: for every square N × N matrix U and offset l in [0, N), diag_repr succeeds and
returns the concatenation of diag(U, l) and diag(U, l - N), which is the length-N
generalized cyclic diagonal with entries U[i, (i + l) mod N]; the internal
length-mismatch check never fires for l in range; and for every non-square U the
call fails with a shape error. -/
theorem C4_diag_repr_cyclic (U : NpMat) (l : ℕ) :
    (U.rows = U.cols → l < U.rows →
      diag_repr U l = .ok (diagConcat U l) ∧ (diagConcat U l).length = U.rows ∧
        ∀ i, i < U.rows → (diagConcat U l).getD i 0 = U.entry i ((i + l) % U.rows)) ∧
    (U.rows ≠ U.cols → diag_repr U l = .error .shape) := by
  constructor
  · intro hsq hl
    have hlen := diagConcat_length U l hsq hl
    refine ⟨?_, hlen, fun i hi => diagConcat_getD U l hsq hl i hi⟩
    unfold diag_repr
    rw [if_neg (by omega), if_neg (by omega)]
  · intro hne
    unfold diag_repr
    rw [if_pos hne]

/-- Witness for C4 at the concrete square matrix exU and offset 1. -/
theorem C4_witness :
    diag_repr exU 1 = .ok (diagConcat exU 1) ∧
      (diagConcat exU 1).getD 0 0 = exU.entry 0 ((0 + 1) % exU.rows) := by
  have h := (C4_diag_repr_cyclic exU 1).1 (by decide) (by decide)
  exact ⟨h.1, h.2.2 0 (by decide)⟩

/-- C5: the unencrypted diagonal decomposition is exact: for every square N × N
matrix U and length-N vector m, the sum over l of the l-th generalized diagonal
times m rotated by l equals the matrix-vector product U · m. -/
theorem C5_diag_decomposition_exact (U : NpMat) (m : List ℚ)
    (hsq : U.rows = U.cols) (hm : m.length = U.rows) :
    diag_decomp_sum U m = matVecL U m := by
  have hterm_len : ∀ t ∈ (List.range U.rows).map fun l => elemMulL (diagConcat U l) (rotL m l),
      t.length = U.rows := by
    intro t ht
    obtain ⟨l, hlr, rfl⟩ := List.mem_map.mp ht
    have hl := List.mem_range.mp hlr
    rw [length_elemMulL, diagConcat_length U l hsq hl, length_rotL, hm, Nat.min_self]
  obtain ⟨hlen, hget⟩ := sumTerms_spec U.rows _ hterm_len
  have hlen2 : (matVecL U m).length = U.rows := by simp [matVecL]
  refine List.ext_getElem (hlen.trans hlen2.symm) ?_
  intro i h1 h2
  rw [← List.getD_eq_getElem (diag_decomp_sum U m) 0 h1,
    ← List.getD_eq_getElem (matVecL U m) 0 h2]
  have hi : i < U.rows := by rw [← hlen]; exact h1
  rw [show (diag_decomp_sum U m).getD i 0 =
      (((List.range U.rows).map fun l => elemMulL (diagConcat U l) (rotL m l)).map
        fun t => t.getD i 0).sum from hget i hi]
  rw [List.map_map, range_map_sum]
  have hpt : ∀ l ∈ Finset.range U.rows,
      ((fun t => t.getD i 0) ∘ fun l => elemMulL (diagConcat U l) (rotL m l)) l =
        U.entry i ((i + l) % U.rows) * m.getD ((i + l) % U.rows) 0 := by
    intro l hlf
    have hl := Finset.mem_range.mp hlf
    show (elemMulL (diagConcat U l) (rotL m l)).getD i 0 = _
    simp only [elemMulL]
    rw [getD_zipWith _ _ _ i (by rw [diagConcat_length U l hsq hl]; exact hi)
      (by rw [length_rotL, hm]; exact hi)]
    rw [diagConcat_getD U l hsq hl i hi]
    show _ * (rotL m l).getD i 0 = _
    unfold rotL
    rw [getD_range_map _ _ _ (by rw [hm]; exact hi), hm]
  rw [Finset.sum_congr rfl hpt]
  rw [sum_shift_mod (fun j => U.entry i j * m.getD j 0) U.rows i]
  rw [show (matVecL U m).getD i 0 =
      ((List.range U.cols).map fun j => U.entry i j * m.getD j 0).sum from
    getD_range_map _ _ _ hi]
  rw [range_map_sum, ← hsq]

/-- Witness for C5 at the concrete matrix exU and vector of length 2. -/
theorem C5_witness : diag_decomp_sum exU [5, 6] = matVecL exU [5, 6] :=
  C5_diag_decomposition_exact exU [5, 6] (by decide) (by decide)

/-- C6: each of the four permutation generators matches its closed-form index map
exactly on the base d² × d² block: for all i, j below d, a 1 at the mapped column
of row d·i+j and 0 at every other in-range column; for sigma and tau this block is
the top-left block of the duplicated matrix. -/
theorem C6_permutation_closed_forms (d nmax k i j : ℕ) (hi : i < d) (hj : j < d)
    (hcap : d * d ≤ nmax) :
    ((sigma_permutation d nmax).entry (d * i + j) (d * i + (i + j) % d) = 1 ∧
      ∀ c, c < d * d → c ≠ d * i + (i + j) % d →
        (sigma_permutation d nmax).entry (d * i + j) c = 0) ∧
    ((tau_permutation d nmax).entry (d * i + j) (d * ((i + j) % d) + j) = 1 ∧
      ∀ c, c < d * d → c ≠ d * ((i + j) % d) + j →
        (tau_permutation d nmax).entry (d * i + j) c = 0) ∧
    ((phi_permutation_k k d nmax).entry (d * i + j) (d * i + (j + k) % d) = 1 ∧
      ∀ c, c < d * d → c ≠ d * i + (j + k) % d →
        (phi_permutation_k k d nmax).entry (d * i + j) c = 0) ∧
    ((psi_permutation_k k d nmax).entry (d * i + j) (d * ((i + k) % d) + j) = 1 ∧
      ∀ c, c < d * d → c ≠ d * ((i + k) % d) + j →
        (psi_permutation_k k d nmax).entry (d * i + j) c = 0) := by
  have hd : 0 < d := by omega
  have hrow : d * i + j < d * d := row_lt_sq d i j hi hj
  have hsig : ∀ c, c < d * d → (sigma_permutation d nmax).entry (d * i + j) c =
      (sigmaBase d).entry (d * i + j) c := fun c hc =>
    kron_eye2_topleft (sigmaBase d) _ _ hrow hc
  have htau : ∀ c, c < d * d → (tau_permutation d nmax).entry (d * i + j) c =
      (tauBase d).entry (d * i + j) c := fun c hc =>
    kron_eye2_topleft (tauBase d) _ _ hrow hc
  refine ⟨⟨?_, ?_⟩, ⟨?_, ?_⟩, ⟨?_, ?_⟩, ⟨?_, ?_⟩⟩
  · rw [hsig _ (row_lt_sq d i ((i + j) % d) hi (Nat.mod_lt _ hd))]
    unfold sigmaBase
    rw [permBase_apply d _ i j _ hi hj, if_pos rfl]
  · intro c hc hne
    rw [hsig c hc]
    unfold sigmaBase
    rw [permBase_apply d _ i j c hi hj, if_neg hne]
  · rw [htau _ (by have := Nat.mod_lt (i + j) hd; exact row_lt_sq d ((i + j) % d) j this hj)]
    unfold tauBase
    rw [permBase_apply d _ i j _ hi hj, if_pos rfl]
  · intro c hc hne
    rw [htau c hc]
    unfold tauBase
    rw [permBase_apply d _ i j c hi hj, if_neg hne]
  · show (phiBase k d).entry (d * i + j) (d * i + (j + k) % d) = 1
    unfold phiBase
    rw [permBase_apply d _ i j _ hi hj, if_pos rfl]
  · intro c hc hne
    show (phiBase k d).entry (d * i + j) c = 0
    unfold phiBase
    rw [permBase_apply d _ i j c hi hj, if_neg hne]
  · show (psiBase k d).entry (d * i + j) (d * ((i + k) % d) + j) = 1
    unfold psiBase
    rw [permBase_apply d _ i j _ hi hj, if_pos rfl]
  · intro c hc hne
    show (psiBase k d).entry (d * i + j) c = 0
    unfold psiBase
    rw [permBase_apply d _ i j c hi hj, if_neg hne]

/-- Witness for C6 at d = 2, k = 1, i = 1, j = 0. -/
theorem C6_witness :
    (sigma_permutation 2 8).entry (2 * 1 + 0) (2 * 1 + (1 + 0) % 2) = 1 ∧
      (phi_permutation_k 1 2 8).entry (2 * 1 + 0) (2 * 1 + (0 + 1) % 2) = 1 := by
  have h := C6_permutation_closed_forms 2 8 1 1 0 (by decide) (by decide) (by decide)
  exact ⟨h.1.1, h.2.2.1.1⟩

/-- C1 counterexample: cA_dot_cB invokes the first-stage transform with
relinearization keys, so the relinearize/rescale branch IS taken: at a concrete
engine and input ciphertext, A0 comes out one level below the input and with a
rescaled (not the accumulated) scale. -/
theorem C1_counterexample :
    matmul_A0 exEngine exCt 1 = .ok exA0 ∧ exA0.level ≠ exCt.level ∧
      exA0.scale ≠ exCt.scale * exCt.scale := by
  refine ⟨?_, by decide, by norm_num [exA0, exCt]⟩
  norm_num [matmul_A0, lin_trans, lin_trans_acc, foldlE, lt_step, diag_repr, diagConcat, npDiag,
    sigma_permutation, npTrunc, npKron, npEye, sigmaBase, permBase, buildPerm, prodPairs,
    Engine.encode, Engine.modSwitchPt, Engine.rotate, rotL, Engine.multiplyPlain, elemMulL,
    padTo, Engine.addMany, Engine.rescale, Engine.relinearize, addL, Except.bind,
    List.range_succ, exEngine, exCt, exA0, List.flatMap]

/-- C1 amended: the first-stage transforms of cA_dot_cB are computed WITH
relinearization and rescale: whenever stage one succeeds, A0 (resp. B0) leaves
applyLinear exactly one level below ctA (resp. ctB), with scale equal to the
accumulated scale divided by the modulus dropped at the input's level. -/
theorem C1_stage_one_relin_rescale (E : Engine) (ctA ctB : Ct) (d : ℕ) :
    (∀ out, matmul_A0 E ctA d = .ok out →
      out.level + 1 = ctA.level ∧ out.scale = ctA.scale * ctA.scale / E.chain ctA.level) ∧
    (∀ out, matmul_B0 E ctB d = .ok out →
      out.level + 1 = ctB.level ∧ out.scale = ctB.scale * ctB.scale / E.chain ctB.level) :=
  ⟨fun out h => lin_trans_relin_meta E _ ctA out h,
   fun out h => lin_trans_relin_meta E _ ctB out h⟩

/-- Witness for the amended C1 at a concrete successful stage-one run. -/
theorem C1_witness :
    exA0.level + 1 = exCt.level ∧
      exA0.scale = exCt.scale * exCt.scale / exEngine.chain exCt.level :=
  (C1_stage_one_relin_rescale exEngine exCt exCt 1).1 exA0 (by
    norm_num [matmul_A0, lin_trans, lin_trans_acc, foldlE, lt_step, diag_repr, diagConcat,
      npDiag, sigma_permutation, npTrunc, npKron, npEye, sigmaBase, permBase, buildPerm,
      prodPairs, Engine.encode, Engine.modSwitchPt, Engine.rotate, rotL, Engine.multiplyPlain,
      elemMulL, padTo, Engine.addMany, Engine.rescale, Engine.relinearize, addL, Except.bind,
      List.range_succ, exEngine, exCt, exA0, List.flatMap])

/-- C2 counterexample: in the accumulation loop the TERM's scale is overridden
with the accumulator's scale, not the reverse: at concrete operands with scales
3 (accumulator) and 5 (term), the sum carries scale 3, not 5. -/
theorem C2_counterexample :
    matmul_accum_step exEngine exAcc exTerm = .ok exAccRes ∧
      exAccRes.scale = exAcc.scale ∧ exAccRes.scale ≠ exTerm.scale := by
  refine ⟨?_, by norm_num [exAccRes, exAcc], by norm_num [exAccRes, exTerm]⟩
  norm_num [matmul_accum_step, Engine.modSwitchCt, Engine.add, Ct.set_scale, addL,
    Except.bind, exEngine, exAcc, exTerm, exAccRes]

/-- C2 amended: before the addition the accumulator is mod-switched down (never
up) to the term's level, and the TERM's scale is overridden with the
accumulator's scale (the term takes on the accumulator's scale, not the
reverse); only then is the term added into the accumulator. -/
theorem C2_accum_alignment (E : Engine) (a t r : Ct)
    (h : matmul_accum_step E a t = .ok r) :
    t.level ≤ a.level ∧ r.level = t.level ∧ r.scale = a.scale ∧
      r.vec = addL a.vec t.vec := by
  unfold matmul_accum_step at h
  obtain ⟨a', hms, h2⟩ := ebind_eq_ok _ _ _ h
  unfold Engine.modSwitchCt at hms
  split at hms
  · rename_i hle
    cases hms
    unfold Engine.add Ct.set_scale at h2
    split at h2
    · split at h2
      · cases h2
        exact ⟨hle, rfl, rfl, rfl⟩
      · exact Except.noConfusion h2
    · exact Except.noConfusion h2
  · exact Except.noConfusion hms

/-- Witness for the amended C2 at the concrete accumulation-step run. -/
theorem C2_witness :
    exTerm.level ≤ exAcc.level ∧ exAccRes.level = exTerm.level ∧
      exAccRes.scale = exAcc.scale ∧ exAccRes.vec = addL exAcc.vec exTerm.vec :=
  C2_accum_alignment exEngine exAcc exTerm exAccRes (by
    norm_num [matmul_accum_step, Engine.modSwitchCt, Engine.add, Ct.set_scale, addL,
      Except.bind, exEngine, exAcc, exTerm, exAccRes])

/-- C3 counterexample: phi_permutation_k is NOT the claimed duplicated and
truncated matrix: at d = 2, k = 1, nmax = 16 the source function returns the raw
4 × 4 base matrix while the claimed construction is 8 × 8. -/
theorem C3_counterexample :
    ¬ NpMat.EqOn (phi_permutation_k 1 2 16) (phi_permutation_claimed 1 2 16) := by decide

/-- C3 amended: only rowShift (sigma) and colShift (tau) are duplicated by a
Kronecker product with the 2 × 2 identity and sliced to at most nmax rows and
columns (shape min(2d², nmax), carrying a second diagonal copy of the base
block); rowShiftBy (phi) and colShiftBy (psi) return the raw d² × d² base matrix
with no duplication and no truncation. -/
theorem C3_duplication_structure (d nmax k : ℕ) :
    ((sigma_permutation d nmax).rows = min (2 * (d * d)) nmax ∧
      (sigma_permutation d nmax).cols = min (2 * (d * d)) nmax ∧
      ∀ r c, r < 2 * (d * d) → c < 2 * (d * d) →
        (sigma_permutation d nmax).entry r c =
          if r < d * d ∧ c < d * d then (sigmaBase d).entry r c
          else if d * d ≤ r ∧ d * d ≤ c then (sigmaBase d).entry (r - d * d) (c - d * d)
          else 0) ∧
    ((tau_permutation d nmax).rows = min (2 * (d * d)) nmax ∧
      (tau_permutation d nmax).cols = min (2 * (d * d)) nmax ∧
      ∀ r c, r < 2 * (d * d) → c < 2 * (d * d) →
        (tau_permutation d nmax).entry r c =
          if r < d * d ∧ c < d * d then (tauBase d).entry r c
          else if d * d ≤ r ∧ d * d ≤ c then (tauBase d).entry (r - d * d) (c - d * d)
          else 0) ∧
    ((phi_permutation_k k d nmax).rows = d * d ∧
      (phi_permutation_k k d nmax).cols = d * d ∧
      ∀ r c, (phi_permutation_k k d nmax).entry r c = (phiBase k d).entry r c) ∧
    ((psi_permutation_k k d nmax).rows = d * d ∧
      (psi_permutation_k k d nmax).cols = d * d ∧
      ∀ r c, (psi_permutation_k k d nmax).entry r c = (psiBase k d).entry r c) := by
  refine ⟨⟨rfl, rfl, ?_⟩, ⟨rfl, rfl, ?_⟩,
    ⟨rfl, rfl, fun r c => rfl⟩, ⟨rfl, rfl, fun r c => rfl⟩⟩
  · intro r c hr hc
    exact kron_eye2_entry (sigmaBase d) r c hr hc
  · intro r c hr hc
    exact kron_eye2_entry (tauBase d) r c hr hc

/-- Witness for the amended C3: the shape of sigma at d = 2, nmax = 16, and the
duplicated copy of its base block. -/
theorem C3_witness :
    (sigma_permutation 2 16).rows = min (2 * (2 * 2)) 16 ∧
      (sigma_permutation 2 16).entry 5 5 = (sigmaBase 2).entry 1 1 := by
  refine ⟨(C3_duplication_structure 2 16 1).1.1, ?_⟩
  have h := (C3_duplication_structure 2 16 1).1.2.2 5 5 (by decide) (by decide)
  norm_num at h
  exact h

/-- C7: cA_dot_cB fails with the capacity error exactly when d² exceeds half the
slot count — the check is the first thing the function does, before any
homomorphic operation; when d² is at most half the slot count, no capacity
failure is ever raised (any failure is a different error). -/
theorem C7_capacity_check (E : Engine) (a b : Ct) (d : ℕ) :
    (2 * (d * d) > E.slotCount → cA_dot_cB E a b d = .error .capacity) ∧
    (2 * (d * d) ≤ E.slotCount → NeverErr .capacity (cA_dot_cB E a b d)) := by
  constructor
  · intro h
    unfold cA_dot_cB
    rw [if_pos h]
  · intro h
    unfold cA_dot_cB
    rw [if_neg (by omega)]
    refine neverErr_bind _ _ _ (lin_trans_noCap E _ _ _) fun ctA0 => ?_
    refine neverErr_bind _ _ _ (lin_trans_noCap E _ _ _) fun ctB0 => ?_
    refine neverErr_bind _ _ _
      (foldlE_neverErr _ _ (fun p k => mm_k_step_noCap E d E.slotCount ctA0 ctB0 p k) _ _)
      fun ks => ?_
    refine neverErr_bind _ _ _ (cA_x_cB_noCap E _ _) fun ctAB => ?_
    exact foldlE_neverErr _ _ (fun x ab => mm_acc_loop_step_noCap E x ab) _ _

/-- Witness for C7: a concrete capacity failure at d = 2 with 4 slots, and the
no-capacity conclusion applied to a concrete in-capacity run (which fails with
the distinct empty-add error). -/
theorem C7_witness :
    cA_dot_cB capEngine exCt exCt 2 = .error .capacity ∧ Err.emptyAdd ≠ Err.capacity :=
  ⟨(C7_capacity_check capEngine exCt exCt 2).1 (by decide),
   (C7_capacity_check exEngine exCt exCt 0).2 (by decide) .emptyAdd rfl⟩

set_option maxHeartbeats 1600000 in
/-- C8: both skip optimizations are pure: in the unencrypted simulation of the
same arithmetic, skipping zero-diagonal offsets in the linear-transform loop and
skipping k steps whose permutation matrix sums to zero leave the computed
results exactly equal to the full unskipped computations. -/
theorem C8_skip_purity (U : NpMat) (mvec : List ℚ) (d nmax : ℕ) (a b : List ℚ)
    (ha : a.length = nmax) (hb : b.length = nmax) :
    lin_trans_sim true U mvec = lin_trans_sim false U mvec ∧
      cA_dot_cB_sim true d nmax a b = cA_dot_cB_sim false d nmax a b := by
  refine ⟨lin_trans_sim_skip_eq U mvec, ?_⟩
  unfold cA_dot_cB_sim
  rw [lin_trans_sim_skip_eq (sigma_permutation d nmax) a,
    lin_trans_sim_skip_eq (tau_permutation d nmax) b]
  refine foldl_addL_filterMap_congr nmax _ _ ?_ ?_ _ _ ?_
  · intro x t h
    unfold kTermF at h
    rw [if_neg (by simp)] at h
    cases h
    simp [length_elemMulL, lin_trans_sim_length, ha, hb]
  · intro k
    by_cases hz : (matSum (phi_permutation_k k d nmax) = 0 ∨
        matSum (psi_permutation_k k d nmax) = 0)
    · right
      constructor
      · unfold kTermF
        rw [if_pos ⟨rfl, hz⟩]
      · refine ⟨elemMulL
            (lin_trans_sim false (phi_permutation_k k d nmax)
              (lin_trans_sim false (sigma_permutation d nmax) a))
            (lin_trans_sim false (psi_permutation_k k d nmax)
              (lin_trans_sim false (tau_permutation d nmax) b)), ?_, ?_⟩
        · unfold kTermF
          rw [if_neg (by simp)]
        · rcases hz with hz | hz
          · exact elemMul_zero_left _ _ (lin_trans_sim_zero false _ _
              (matSum_zero_entries _
                (fun r c => permBase_entry_nonneg d (fun i j => d * i + (j + k) % d) r c) hz))
          · exact elemMul_zero_right _ _ (lin_trans_sim_zero false _ _
              (matSum_zero_entries _
                (fun r c => permBase_entry_nonneg d (fun i j => d * ((i + k) % d) + j) r c) hz))
    · left
      unfold kTermF
      rw [if_neg (by simp [hz]), if_neg (by simp),
        lin_trans_sim_skip_eq, lin_trans_sim_skip_eq]
  · simp [length_elemMulL, lin_trans_sim_length, ha, hb]

/-- Witness for C8 at concrete inputs: matrix exU with vector [5, 6], and d = 2
with 8 slots. -/
theorem C8_witness :
    lin_trans_sim true exU [5, 6] = lin_trans_sim false exU [5, 6] ∧
      cA_dot_cB_sim true 2 8 exVec8 exVec8 = cA_dot_cB_sim false 2 8 exVec8 exVec8 :=
  C8_skip_purity exU [5, 6] 2 8 exVec8 exVec8 (by decide) (by decide)

/-- C9: packing round trip: for every matrix that fits the slot capacity,
flatten row-major, tile, encode, encrypt, then decrypt, decode, truncate to the
first rows·cols values and reshape reproduces the original matrix (encryption
and encoding are modelled as exact, so scheme precision is equality here). -/
theorem C9_pack_roundtrip (E : Engine) (A : NpMat) (s : ℚ)
    (h1 : 0 < A.rows) (h2 : 0 < A.cols) (h3 : A.rows * A.cols ≤ E.slotCount) :
    NpMat.EqOn (decrypt_array (encrypt_array E A s) A.rows A.cols) A := by
  refine ⟨rfl, rfl, ?_⟩
  intro r hr c hc
  have hr' : r < A.rows := hr
  have hc' : c < A.cols := hc
  show ((padTo E.slotCount
      ((List.replicate (E.slotCount / A.cols / A.rows) (matFlatten A)).flatten)).take
        (A.rows * A.cols)).getD (r * A.cols + c) 0 = A.entry r c
  have ht : 1 ≤ E.slotCount / A.cols / A.rows := by
    rw [Nat.div_div_eq_div_mul]
    refine (Nat.one_le_div_iff (by positivity)).mpr ?_
    rw [Nat.mul_comm]
    exact h3
  have hflat : (matFlatten A).length = A.rows * A.cols := matFlatten_length A
  have hidx : r * A.cols + c < A.rows * A.cols := by
    calc r * A.cols + c < r * A.cols + A.cols := by omega
      _ = (r + 1) * A.cols := by ring
      _ ≤ A.rows * A.cols := Nat.mul_le_mul_right _ (by omega)
  clear hr hc
  have hTlen : ((List.replicate (E.slotCount / A.cols / A.rows) (matFlatten A)).flatten).length =
      (E.slotCount / A.cols / A.rows) * (A.rows * A.cols) := by
    rw [List.length_flatten, List.map_replicate, List.sum_replicate, smul_eq_mul, hflat]
  rw [getD_take' _ _ _ hidx]
  unfold padTo
  rw [getD_append_left _ _ _ (by
    rw [hTlen]
    exact Nat.lt_of_lt_of_le hidx (Nat.le_mul_of_pos_left _ (by omega)))]
  obtain ⟨t', ht'⟩ : ∃ t', E.slotCount / A.cols / A.rows = t' + 1 :=
    ⟨E.slotCount / A.cols / A.rows - 1, by omega⟩
  rw [ht', List.replicate_succ, List.flatten_cons,
    getD_append_left _ _ _ (by rw [hflat]; exact hidx)]
  exact matFlatten_getD A r c hr' hc'

/-- Witness for C9 at the concrete 2 × 2 matrix exU and an 8-slot engine. -/
theorem C9_witness :
    NpMat.EqOn (decrypt_array (encrypt_array packEngine exU 4) exU.rows exU.cols) exU :=
  C9_pack_roundtrip packEngine exU 4 (by decide) (by decide) (by decide)

/-- C10: for a square matrix all of whose generalized diagonals are zero, the
lin_trans loop skips every one of its iterations: the accumulator list handed to
add_many is empty — no diagonal is encoded, no term is multiplied, and no
encryption of the zero vector is built — and lin_trans then surfaces add_many's
empty-input error. -/
theorem C10_zero_diagonals_empty_acc (E : Engine) (U : NpMat) (ct : Ct) (relin : Bool)
    (hsq : U.rows = U.cols)
    (hz : ∀ l, l < U.rows → ∀ x ∈ diagConcat U l, x = 0) :
    lin_trans_acc E U ct = .ok [] ∧ lin_trans E U ct relin = .error .emptyAdd := by
  have hacc : lin_trans_acc E U ct = .ok [] := by
    unfold lin_trans_acc
    have key : ∀ (ls : List ℕ), (∀ l ∈ ls, l < U.rows) →
        foldlE (lt_step E U ct) [] ls = .ok [] := by
      intro ls
      induction ls with
      | nil => intro _; rfl
      | cons l t ih =>
          intro hmem
          have hl := hmem l (by simp)
          have hstep : lt_step E U ct [] l = .ok [] := by
            unfold lt_step
            have hok : diag_repr U l = .ok (diagConcat U l) := by
              unfold diag_repr
              rw [if_neg (by omega), if_neg (by rw [diagConcat_length U l hsq hl]; omega)]
            rw [hok]
            simp only [ebind_ok]
            rw [if_pos (sum_map_abs_zero (hz l hl))]
          simp only [foldlE]
          rw [hstep]
          simp only [ebind_ok]
          exact ih fun x hx => hmem x (by simp [hx])
    exact key _ fun l hl => List.mem_range.mp hl
  refine ⟨hacc, ?_⟩
  unfold lin_trans
  rw [if_neg (by omega), hacc]
  simp only [ebind_ok]
  rfl

/-- Witness for C10 at the all-zero 2 × 2 matrix. -/
theorem C10_witness :
    lin_trans_acc exEngine exUzero exCt = .ok [] ∧
      lin_trans exEngine exUzero exCt true = .error .emptyAdd :=
  C10_zero_diagonals_empty_acc exEngine exUzero exCt true (by decide) (by decide)
